import Mathlib

/-
Verification of the minitorch indexing / broadcasting engine and its
elementwise map / zip / reduce kernels, via a shallow embedding of
src/minitorch/tensor_ops.py and src/minitorch/operators.py.

Storage buffers are embedded as Lean lists over a generic element type; the
scalar functions handed to the kernels stay fully generic.  The indexing
primitives imported by tensor_ops.py from the tensor_data module (whose file
is not part of the sources) are modelled from the specification text and are
marked as such in their doc comments.
-/

set_option linter.unusedVariables false

namespace Minitorch

universe u v

variable {α : Type u} {β : Type v}

/-- Modelled from the spec: the single error kind IndexingError raised by the
indexing and broadcasting primitives (the source module tensor_data.py is not
among the sources; only its callers are). -/
structure IndexingError where
  msg : String
  deriving DecidableEq

/-- Size of a shape: the product of its entries (1 for the empty shape). -/
def size (s : List Nat) : Nat := s.prod

/-- A coordinate is within bounds of a shape: same length and each entry
strictly below the corresponding shape entry. -/
def inBounds : List Nat → List Nat → Prop
  | [], [] => True
  | c :: cs, n :: ns => c < n ∧ inBounds cs ns
  | _, _ => False

instance instDecidableInBounds : (c s : List Nat) → Decidable (inBounds c s)
  | [], [] => .isTrue trivial
  | [], _ :: _ => .isFalse fun h => h
  | _ :: _, [] => .isFalse fun h => h
  | c :: cs, n :: ns =>
    have : Decidable (inBounds cs ns) := instDecidableInBounds cs ns
    inferInstanceAs (Decidable (c < n ∧ inBounds cs ns))

/-- Modelled from the spec: index_to_position (Index Translator; source
tensor_data.py not among the sources) - the storage position of a coordinate
is the dot product of the coordinate and the strides. -/
def index_to_position : List Nat → List Nat → Nat
  | [], _ => 0
  | _ :: _, [] => 0
  | i :: is, st :: sts => i * st + index_to_position is sts

/-- Modelled from the spec: to_index / toCoordinate (source tensor_data.py not
among the sources) - decomposes a flat row-major enumeration position into a
coordinate under a shape by repeatedly dividing by the size of the remaining
trailing dimensions. -/
def to_index : List Nat → Nat → List Nat
  | [], _ => []
  | _ :: ss, p => p / size ss :: to_index ss (p % size ss)

/-- Canonical contiguous row-major strides of a shape: the last dimension has
stride 1 and each preceding dimension's stride is the product of all following
dimensions' sizes. -/
def canonStrides : List Nat → List Nat
  | [] => []
  | _ :: ss => size ss :: canonStrides ss

/-- Modelled from the spec: broadcast_index / broadcastIndex (source
tensor_data.py not among the sources) - maps a coordinate valid under the big
output shape down to a coordinate under a smaller source shape, right-aligning
the small shape and forcing broadcast (size-1) dimensions to 0. -/
def broadcast_index (big_index big_shape shape : List Nat) : List Nat :=
  let off := big_shape.length - shape.length
  (List.range shape.length).map fun i =>
    if big_shape.getD (i + off) 0 = 1 ∨ shape.getD i 0 = 1 then 0
    else big_index.getD (i + off) 0

/-- Modelled from the spec: shape_broadcast / broadcastShape (source
tensor_data.py not among the sources) - right-aligns the two shapes by padding
the shorter one on the left with size-1 dimensions, then combines dimensions
pairwise (equal sizes kept, a size 1 yields the other size), failing with
IndexingError on any incompatible pair. -/
def shape_broadcast (a b : List Nat) : Except IndexingError (List Nat) :=
  let n := max a.length b.length
  let a2 := List.replicate (n - a.length) 1 ++ a
  let b2 := List.replicate (n - b.length) 1 ++ b
  (a2.zip b2).mapM fun p =>
    if p.1 = p.2 then Except.ok p.1
    else if p.2 = 1 then Except.ok p.1
    else if p.1 = 1 then Except.ok p.2
    else Except.error ⟨"cannot broadcast"⟩

/-- The coordinate enumeration driving all three kernels: the row-major
product of the per-dimension ranges, exactly as itertools.product over
(range(i) for i in shape) in tensor_ops.py, the last dimension fastest. -/
def enumerateShape : List Nat → List (List Nat)
  | [] => [[]]
  | n :: ss => (List.range n).flatMap fun i => (enumerateShape ss).map (i :: ·)

/-- Apply a list of (position, value) writes to a storage buffer in order. -/
def writeList (ws : List (Nat × α)) (st : List α) : List α :=
  ws.foldl (fun acc pv => acc.set pv.1 pv.2) st

/-- The accumulator loop of _reduce along the reduced dimension: none when
there are no values (the source's last stays None), otherwise the left fold
of the remaining values starting from the first one. -/
def firstFold (fn : α → α → α) : List α → Option α
  | [] => none
  | x :: xs => some (xs.foldl fn x)

namespace TensorOps

/-- Embedding of _map from tensor_ops.py: for each coordinate of the output
shape, read the input at the position of the broadcast input coordinate and
write fn of that value at the position of the output coordinate.  d is the
out-of-range read default of the embedding; every read is in range whenever
the caller respects the stated shape preconditions. -/
def tensor_map (fn : α → α) (d : α)
    (out : List α) (out_shape out_strides : List Nat)
    (in_storage : List α) (in_shape in_strides : List Nat) : List α :=
  (enumerateShape out_shape).foldl
    (fun acc idx =>
      acc.set (index_to_position idx out_strides)
        (fn (in_storage.getD
          (index_to_position (broadcast_index idx out_shape in_shape) in_strides) d)))
    out

/-- Embedding of _zip from tensor_ops.py: for each coordinate of the output
shape, broadcast it down to each operand's own shape, read both values, and
write fn of them at the position of the output coordinate. -/
def tensor_zip (fn : α → α → α) (d : α)
    (out : List α) (out_shape out_strides : List Nat)
    (a_storage : List α) (a_shape a_strides : List Nat)
    (b_storage : List α) (b_shape b_strides : List Nat) : List α :=
  (enumerateShape out_shape).foldl
    (fun acc idx =>
      acc.set (index_to_position idx out_strides)
        (fn
          (a_storage.getD
            (index_to_position (broadcast_index idx out_shape a_shape) a_strides) d)
          (b_storage.getD
            (index_to_position (broadcast_index idx out_shape b_shape) b_strides) d)))
    out

/-- Embedding of _reduce from tensor_ops.py: iterate the coordinates of the
input shape with the reduced dimension deleted; for each one, fold the input
values along the reduced dimension in increasing order with the accumulator
initialized from the first value (the source's last is None before the first
value), and write the final accumulator at the output coordinate obtained by
re-inserting 0 at the reduced dimension.  When the reduced dimension is empty
the accumulator is still None at the write; storing None into the float
storage fails, embedded as the result none. -/
def tensor_reduce (fn : α → α → α) (d : α)
    (out : List α) (out_shape out_strides : List Nat)
    (in_storage : List α) (in_shape in_strides : List Nat)
    (reduce_dim : Nat) : Option (List α) :=
  (enumerateShape (in_shape.eraseIdx reduce_dim)).foldlM
    (fun acc idx =>
      (firstFold fn ((List.range (in_shape.getD reduce_dim 0)).map fun j =>
          in_storage.getD
            (index_to_position (idx.insertIdx reduce_dim j) in_strides) d)).map
        fun w => acc.set (index_to_position (idx.insertIdx reduce_dim 0) out_strides) w)
    out

end TensorOps

/-- Modelled from the spec: the TensorView collaborator type - a flat storage
buffer together with a shape and strides. -/
structure TensorData (α : Type u) where
  storage : List α
  shape : List Nat
  strides : List Nat
  deriving DecidableEq

/-- Modelled from the spec: a.zeros(shape) - allocate a fresh zero-filled
contiguous TensorView of the given shape; z stands for the zero value of the
generic storage element type. -/
def zeros (z : α) (shape : List Nat) : TensorData α :=
  ⟨List.replicate (size shape) z, shape, canonStrides shape⟩

namespace TensorOps

/-- Embedding of ret inside map(fn) in tensor_ops.py: when no output tensor is
supplied a fresh one is allocated with the input's own shape, then the map
kernel fills its storage. -/
def map (fn : α → α) (z : α) (a : TensorData α) (out0 : Option (TensorData α)) :
    TensorData α :=
  let out := match out0 with
    | none => zeros z a.shape
    | some o => o
  { out with
    storage := tensor_map fn z out.storage out.shape out.strides
      a.storage a.shape a.strides }

/-- Embedding of ret inside zip(fn) in tensor_ops.py: the output shape is the
operands' shape when the two are equal, else shape_broadcast of the two; a
fresh zero tensor of that shape is allocated and the zip kernel fills it. -/
def zip (fn : α → α → α) (z : α) (a b : TensorData α) :
    Except IndexingError (TensorData α) :=
  match (if a.shape ≠ b.shape then shape_broadcast a.shape b.shape
         else Except.ok a.shape) with
  | Except.error e => Except.error e
  | Except.ok c_shape =>
    let out := zeros z c_shape
    Except.ok { out with
      storage := tensor_zip fn z out.storage out.shape out.strides
        a.storage a.shape a.strides b.storage b.shape b.strides }

/-- The general broadcast path of zip, written from the spec's words for the
refinement comparison: the output shape is always computed via
shape_broadcast, with no equal-shape shortcut. -/
def zipGeneral (fn : α → α → α) (z : α) (a b : TensorData α) :
    Except IndexingError (TensorData α) :=
  match shape_broadcast a.shape b.shape with
  | Except.error e => Except.error e
  | Except.ok c_shape =>
    let out := zeros z c_shape
    Except.ok { out with
      storage := tensor_zip fn z out.storage out.shape out.strides
        a.storage a.shape a.strides b.storage b.shape b.strides }

/-- Embedding of ret inside reduce(fn, start) in tensor_ops.py: the output
shape is the input shape with entry dim set to 1; the output buffer is
allocated as zeros and then wholly filled with start before the reduce kernel
runs. -/
def reduce (fn : α → α → α) (start : α) (z : α) (a : TensorData α) (dim : Nat) :
    Option (TensorData α) :=
  let out_shape := a.shape.set dim 1
  let out := zeros z out_shape
  let filled := List.replicate out.storage.length start
  match tensor_reduce fn z filled out_shape out.strides
      a.storage a.shape a.strides dim with
  | none => none
  | some st => some { out with storage := st }

end TensorOps

namespace Operators

/-- Embedding of id from operators.py. -/
def id (x : α) : α := x

/-- Embedding of add from operators.py, over the generic integer model of the
scalar values. -/
def add (x y : Int) : Int := x + y

/-- Embedding of mul from operators.py. -/
def mul (x y : Int) : Int := x * y

/-- Embedding of neg from operators.py. -/
def neg (x : Int) : Int := -x

/-- Embedding of _reduce inside reduce(fn, start) in operators.py: returns 0
on an empty list; otherwise the accumulator starts from the element at list
index start (start is used as an index, not as a seed value) and fn is folded
over the elements after it. -/
def reduce (fn : Int → Int → Int) (start : Nat) (itr : List Int) : Int :=
  if itr = [] then 0
  else (itr.drop (start + 1)).foldl fn (itr.getD start 0)

/-- Embedding of sum from operators.py. -/
def sum (ls : List Int) : Int := reduce add 0 ls

/-- Embedding of prod from operators.py. -/
def prod (ls : List Int) : Int := reduce mul 0 ls

end Operators

theorem size_nil : size ([] : List Nat) = 1 := rfl

theorem size_cons (n : Nat) (ss : List Nat) : size (n :: ss) = n * size ss :=
  List.prod_cons

theorem enumerateShape_nil : enumerateShape [] = [[]] := rfl

theorem enumerateShape_cons (n : Nat) (ss : List Nat) :
    enumerateShape (n :: ss)
      = (List.range n).flatMap fun i => (enumerateShape ss).map (i :: ·) := rfl

theorem range_mul_flatMap (n m : Nat) :
    List.range (n * m)
      = (List.range n).flatMap fun i => (List.range m).map fun j => i * m + j := by
  induction n with
  | zero => simp
  | succ k ih =>
    rw [Nat.succ_mul, List.range_add, ih, List.range_succ, List.flatMap_append]
    simp

theorem to_index_inBounds {s : List Nat} {p : Nat} (h : p < size s) :
    inBounds (to_index s p) s := by
  induction s generalizing p with
  | nil => exact trivial
  | cons n ss ih =>
    rw [size_cons] at h
    have hm : 0 < size ss := by
      rcases Nat.eq_zero_or_pos (size ss) with h0 | h0
      · rw [h0, Nat.mul_zero] at h; omega
      · exact h0
    exact ⟨(Nat.div_lt_iff_lt_mul hm).2 (by omega), ih (Nat.mod_lt _ hm)⟩

theorem index_to_position_to_index {s : List Nat} {p : Nat} (h : p < size s) :
    index_to_position (to_index s p) (canonStrides s) = p := by
  induction s generalizing p with
  | nil =>
    have : p = 0 := by
      have := h
      rw [size_nil] at this
      omega
    simp [this, to_index, canonStrides, index_to_position]
  | cons n ss ih =>
    rw [size_cons] at h
    have hm : 0 < size ss := by
      rcases Nat.eq_zero_or_pos (size ss) with h0 | h0
      · rw [h0, Nat.mul_zero] at h; omega
      · exact h0
    show p / size ss * size ss
        + index_to_position (to_index ss (p % size ss)) (canonStrides ss) = p
    rw [ih (Nat.mod_lt _ hm), Nat.mul_comm]
    exact Nat.div_add_mod p (size ss)

theorem index_to_position_lt {c s : List Nat} (h : inBounds c s) :
    index_to_position c (canonStrides s) < size s := by
  induction s generalizing c with
  | nil =>
    cases c with
    | nil => exact Nat.zero_lt_one
    | cons c0 cs => exact absurd h (fun h => h)
  | cons n ss ih =>
    cases c with
    | nil => exact absurd h (fun h => h)
    | cons c0 cs =>
      obtain ⟨h1, h2⟩ := h
      have hp := ih h2
      show c0 * size ss + index_to_position cs (canonStrides ss) < size (n :: ss)
      rw [size_cons]
      calc c0 * size ss + index_to_position cs (canonStrides ss)
          < c0 * size ss + size ss := Nat.add_lt_add_left hp _
        _ = (c0 + 1) * size ss := (Nat.succ_mul c0 (size ss)).symm
        _ ≤ n * size ss := Nat.mul_le_mul_right _ h1

theorem to_index_index_to_position {c s : List Nat} (h : inBounds c s) :
    to_index s (index_to_position c (canonStrides s)) = c := by
  induction s generalizing c with
  | nil =>
    cases c with
    | nil => rfl
    | cons c0 cs => exact absurd h (fun h => h)
  | cons n ss ih =>
    cases c with
    | nil => exact absurd h (fun h => h)
    | cons c0 cs =>
      obtain ⟨h1, h2⟩ := h
      have hp := index_to_position_lt h2
      have hm : 0 < size ss := Nat.lt_of_le_of_lt (Nat.zero_le _) hp
      show (c0 * size ss + index_to_position cs (canonStrides ss)) / size ss
          :: to_index ss ((c0 * size ss + index_to_position cs (canonStrides ss)) % size ss) = c0 :: cs
      have hdiv : (c0 * size ss + index_to_position cs (canonStrides ss)) / size ss = c0 := by
        rw [Nat.add_comm, Nat.mul_comm, Nat.add_mul_div_left _ _ hm,
          Nat.div_eq_of_lt hp, Nat.zero_add]
      have hmod : (c0 * size ss + index_to_position cs (canonStrides ss)) % size ss
          = index_to_position cs (canonStrides ss) := by
        rw [Nat.add_comm, Nat.mul_comm, Nat.add_mul_mod_self_left, Nat.mod_eq_of_lt hp]
      rw [hdiv, hmod, ih h2]

theorem enumerateShape_eq_map (s : List Nat) :
    enumerateShape s = (List.range (size s)).map (to_index s) := by
  induction s with
  | nil => rfl
  | cons n ss ih =>
    rw [enumerateShape_cons, ih, size_cons, range_mul_flatMap, List.map_flatMap]
    refine congrArg (List.range n).flatMap ?_
    funext i
    rw [List.map_map, List.map_map]
    refine List.map_congr_left fun j hj => ?_
    have hjm : j < size ss := List.mem_range.1 hj
    have hm : 0 < size ss := Nat.lt_of_le_of_lt (Nat.zero_le _) hjm
    have hdiv : (i * size ss + j) / size ss = i := by
      rw [Nat.add_comm, Nat.mul_comm, Nat.add_mul_div_left _ _ hm,
        Nat.div_eq_of_lt hjm, Nat.zero_add]
    have hmod : (i * size ss + j) % size ss = j := by
      rw [Nat.add_comm, Nat.mul_comm, Nat.add_mul_mod_self_left, Nat.mod_eq_of_lt hjm]
    show i :: to_index ss j
        = (i * size ss + j) / size ss :: to_index ss ((i * size ss + j) % size ss)
    rw [hdiv, hmod]

theorem length_enumerateShape (s : List Nat) :
    (enumerateShape s).length = size s := by
  rw [enumerateShape_eq_map, List.length_map, List.length_range]

theorem nodup_enumerateShape (s : List Nat) : (enumerateShape s).Nodup := by
  rw [enumerateShape_eq_map]
  refine List.Nodup.map_on ?_ (List.nodup_range _)
  intro i hi j hj hij
  have hi' : i < size s := List.mem_range.1 hi
  have hj' : j < size s := List.mem_range.1 hj
  have := congrArg (fun c => index_to_position c (canonStrides s)) hij
  simpa [index_to_position_to_index hi', index_to_position_to_index hj'] using this

theorem inBounds_of_mem_enumerateShape {c s : List Nat}
    (h : c ∈ enumerateShape s) : inBounds c s := by
  rw [enumerateShape_eq_map] at h
  obtain ⟨i, hi, rfl⟩ := List.mem_map.1 h
  exact to_index_inBounds (List.mem_range.1 hi)

theorem mem_enumerateShape_of_inBounds {c s : List Nat}
    (h : inBounds c s) : c ∈ enumerateShape s := by
  rw [enumerateShape_eq_map]
  refine List.mem_map.2 ⟨index_to_position c (canonStrides s), ?_, ?_⟩
  · exact List.mem_range.2 (index_to_position_lt h)
  · exact to_index_index_to_position h

theorem index_to_position_inj {c1 c2 s : List Nat}
    (h1 : inBounds c1 s) (h2 : inBounds c2 s)
    (h : index_to_position c1 (canonStrides s) = index_to_position c2 (canonStrides s)) :
    c1 = c2 := by
  rw [← to_index_index_to_position h1, ← to_index_index_to_position h2, h]

theorem writeList_nil (st : List α) : writeList [] st = st := rfl

theorem writeList_cons (w : Nat × α) (ws : List (Nat × α)) (st : List α) :
    writeList (w :: ws) st = writeList ws (st.set w.1 w.2) := rfl

theorem writeList_length (ws : List (Nat × α)) (st : List α) :
    (writeList ws st).length = st.length := by
  induction ws generalizing st with
  | nil => rfl
  | cons w ws ih => rw [writeList_cons, ih, List.length_set]

theorem writeList_getElem?_of_not_mem {ws : List (Nat × α)} {st : List α} {p : Nat}
    (h : ∀ w ∈ ws, w.1 ≠ p) : (writeList ws st)[p]? = st[p]? := by
  induction ws generalizing st with
  | nil => rfl
  | cons w ws ih =>
    rw [writeList_cons, ih fun u hu => h u (List.mem_cons_of_mem _ hu),
      List.getElem?_set_ne (h w (List.mem_cons_self _ _))]

theorem writeList_getElem?_of_mem {ws : List (Nat × α)} {st : List α} {p : Nat} {v : α}
    (hnd : (ws.map Prod.fst).Nodup) (hmem : (p, v) ∈ ws) (hlen : p < st.length) :
    (writeList ws st)[p]? = some v := by
  induction ws generalizing st with
  | nil => cases hmem
  | cons w ws ih =>
    rw [List.map_cons, List.nodup_cons] at hnd
    rcases List.mem_cons.1 hmem with heq | hmem2
    · rw [← heq, writeList_cons]
      have hfr : ∀ u ∈ ws, u.1 ≠ p := by
        intro u hu hup
        rw [← heq] at hnd
        exact hnd.1 (hup ▸ List.mem_map.2 ⟨u, hu, rfl⟩)
      rw [writeList_getElem?_of_not_mem hfr]
      exact List.getElem?_set_self hlen
    · have hne : w.1 ≠ p := by
        intro hwp
        exact hnd.1 (hwp ▸ List.mem_map.2 ⟨(p, v), hmem2, (congrArg Prod.fst rfl).trans rfl⟩)
      rw [writeList_cons]
      exact ih hnd.2 hmem2 (by rw [List.length_set]; exact hlen)

theorem writeList_getD_of_mem {ws : List (Nat × α)} {st : List α} {p : Nat} {v d : α}
    (hnd : (ws.map Prod.fst).Nodup) (hmem : (p, v) ∈ ws) (hlen : p < st.length) :
    (writeList ws st).getD p d = v := by
  rw [List.getD_eq_getElem?_getD, writeList_getElem?_of_mem hnd hmem hlen]
  rfl

theorem writeList_ext {ws : List (Nat × α)} {st1 st2 : List α}
    (hlen : st1.length = st2.length)
    (hagree : ∀ p, st1[p]? ≠ st2[p]? → ∃ w ∈ ws, w.1 = p) :
    writeList ws st1 = writeList ws st2 := by
  induction ws generalizing st1 st2 with
  | nil =>
    refine List.ext_getElem? fun p => ?_
    by_contra hne
    obtain ⟨w, hw, -⟩ := hagree p hne
    cases hw
  | cons w ws ih =>
    rw [writeList_cons, writeList_cons]
    refine ih (by rw [List.length_set, List.length_set, hlen]) fun p hp => ?_
    rcases Decidable.em (w.1 = p) with hq | hq
    · subst hq
      rcases Nat.lt_or_ge w.1 st1.length with hlt | hge
      · rw [List.getElem?_set_self hlt, List.getElem?_set_self (hlen ▸ hlt)] at hp
        exact absurd rfl hp
      · rw [List.getElem?_eq_none (by rw [List.length_set]; exact hge),
          List.getElem?_eq_none (by rw [List.length_set, ← hlen]; exact hge)] at hp
        exact absurd rfl hp
    · rw [List.getElem?_set_ne hq, List.getElem?_set_ne hq] at hp
      obtain ⟨u, hu, hup⟩ := hagree p hp
      rcases List.mem_cons.1 hu with rfl | hu2
      · exact absurd hup hq
      · exact ⟨u, hu2, hup⟩

/-- The list of (position, value) writes performed by the map kernel, one per
output coordinate in enumeration order. -/
def mapWrites (fn : α → α) (d : α)
    (out_shape out_strides : List Nat)
    (in_storage : List α) (in_shape in_strides : List Nat) : List (Nat × α) :=
  (enumerateShape out_shape).map fun idx =>
    (index_to_position idx out_strides,
     fn (in_storage.getD
       (index_to_position (broadcast_index idx out_shape in_shape) in_strides) d))

/-- The list of (position, value) writes performed by the zip kernel. -/
def zipWrites (fn : α → α → α) (d : α)
    (out_shape out_strides : List Nat)
    (a_storage : List α) (a_shape a_strides : List Nat)
    (b_storage : List α) (b_shape b_strides : List Nat) : List (Nat × α) :=
  (enumerateShape out_shape).map fun idx =>
    (index_to_position idx out_strides,
     fn (a_storage.getD
          (index_to_position (broadcast_index idx out_shape a_shape) a_strides) d)
        (b_storage.getD
          (index_to_position (broadcast_index idx out_shape b_shape) b_strides) d))

theorem tensor_map_eq_writeList (fn : α → α) (d : α)
    (out : List α) (out_shape out_strides : List Nat)
    (in_storage : List α) (in_shape in_strides : List Nat) :
    TensorOps.tensor_map fn d out out_shape out_strides in_storage in_shape in_strides
      = writeList (mapWrites fn d out_shape out_strides in_storage in_shape in_strides) out := by
  rw [TensorOps.tensor_map, writeList, mapWrites, List.foldl_map]

theorem tensor_zip_eq_writeList (fn : α → α → α) (d : α)
    (out : List α) (out_shape out_strides : List Nat)
    (a_storage : List α) (a_shape a_strides : List Nat)
    (b_storage : List α) (b_shape b_strides : List Nat) :
    TensorOps.tensor_zip fn d out out_shape out_strides
        a_storage a_shape a_strides b_storage b_shape b_strides
      = writeList (zipWrites fn d out_shape out_strides
          a_storage a_shape a_strides b_storage b_shape b_strides) out := by
  rw [TensorOps.tensor_zip, writeList, zipWrites, List.foldl_map]

theorem foldlM_option_eq_writeList {l : List β} {G : β → Option α} {g : β → Nat}
    {v : β → α} (st : List α) (hv : ∀ x ∈ l, G x = some (v x)) :
    l.foldlM (fun acc x => (G x).map fun w => acc.set (g x) w) st
      = some (writeList (l.map fun x => (g x, v x)) st) := by
  induction l generalizing st with
  | nil => rfl
  | cons x xs ih =>
    rw [List.foldlM_cons, hv x (List.mem_cons_self _ _), Option.map_some']
    show xs.foldlM (fun acc x => (G x).map fun w => acc.set (g x) w) (st.set (g x) (v x))
        = some (writeList ((x :: xs).map fun x => (g x, v x)) st)
    rw [ih _ fun u hu => hv u (List.mem_cons_of_mem _ hu), List.map_cons, writeList_cons]

theorem foldlM_option_frame {l : List β} {G : β → Option α} {g : β → Nat}
    {st st2 : List α} {p : Nat}
    (hres : l.foldlM (fun acc x => (G x).map fun w => acc.set (g x) w) st = some st2)
    (hp : ∀ x ∈ l, g x ≠ p) : st2[p]? = st[p]? := by
  induction l generalizing st with
  | nil =>
    cases hres
    rfl
  | cons x xs ih =>
    rw [List.foldlM_cons] at hres
    cases hG : G x with
    | none => rw [hG] at hres; cases hres
    | some w =>
      rw [hG, Option.map_some'] at hres
      have := @ih (st.set (g x) w) hres fun u hu => hp u (List.mem_cons_of_mem _ hu)
      rw [this, List.getElem?_set_ne (hp x (List.mem_cons_self _ _))]

theorem broadcast_index_self {c s : List Nat} (h : inBounds c s) :
    broadcast_index c s s = c := by
  rw [broadcast_index]
  simp only [Nat.sub_self, Nat.add_zero, or_self]
  induction s generalizing c with
  | nil =>
    cases c with
    | nil => rfl
    | cons c0 cs => exact absurd h (fun h => h)
  | cons n ss ih =>
    cases c with
    | nil => exact absurd h (fun h => h)
    | cons c0 cs =>
      obtain ⟨h1, h2⟩ := h
      rw [List.length_cons, List.range_succ_eq_map, List.map_cons, List.map_map]
      have hhead : (if (n :: ss).getD 0 0 = 1 then 0 else (c0 :: cs).getD 0 0) = c0 := by
        rcases Decidable.em (n = 1) with h1' | h1'
        · have : c0 = 0 := by omega
          simp [h1', this]
        · simp [List.getD]
          intro hn
          exact absurd hn h1'
      rw [hhead]
      refine congrArg (c0 :: ·) ?_
      have hfun : ∀ i ∈ List.range ss.length,
          ((fun i => if (n :: ss).getD i 0 = 1 then 0 else (c0 :: cs).getD i 0) ∘ Nat.succ) i
            = (fun i => if ss.getD i 0 = 1 then 0 else cs.getD i 0) i :=
        fun i _ => rfl
      rw [List.map_congr_left hfun]
      exact ih h2

theorem shape_broadcast_self (s : List Nat) : shape_broadcast s s = Except.ok s := by
  rw [shape_broadcast]
  simp only [Nat.max_self, Nat.sub_self, List.replicate, List.nil_append]
  induction s with
  | nil => rfl
  | cons n ss ih =>
    rw [List.zip_cons_cons, List.mapM_cons, if_pos rfl, ih]
    rfl

theorem mapWrites_keys (fn : α → α) (d : α)
    (out_shape out_strides : List Nat)
    (in_storage : List α) (in_shape in_strides : List Nat) :
    (mapWrites fn d out_shape out_strides in_storage in_shape in_strides).map Prod.fst
      = (enumerateShape out_shape).map fun idx => index_to_position idx out_strides := by
  rw [mapWrites, List.map_map]
  rfl

theorem zipWrites_keys (fn : α → α → α) (d : α)
    (out_shape out_strides : List Nat)
    (a_storage : List α) (a_shape a_strides : List Nat)
    (b_storage : List α) (b_shape b_strides : List Nat) :
    (zipWrites fn d out_shape out_strides a_storage a_shape a_strides
        b_storage b_shape b_strides).map Prod.fst
      = (enumerateShape out_shape).map fun idx => index_to_position idx out_strides := by
  rw [zipWrites, List.map_map]
  rfl

theorem nodup_canon_positions (s : List Nat) :
    ((enumerateShape s).map fun c => index_to_position c (canonStrides s)).Nodup := by
  refine List.Nodup.map_on ?_ (nodup_enumerateShape s)
  intro c1 h1 c2 h2 h
  exact index_to_position_inj (inBounds_of_mem_enumerateShape h1)
    (inBounds_of_mem_enumerateShape h2) h

/-- Claim C8: the coordinate enumeration driving the kernels yields exactly
size s coordinates, pairwise distinct, each within bounds, in row-major order
with the last dimension varying fastest: the i-th coordinate produced is the
row-major decomposition to_index s i of its own position i. -/
theorem enumerateShape_spec (s : List Nat) :
    (enumerateShape s).length = size s
      ∧ (enumerateShape s).Nodup
      ∧ (∀ c ∈ enumerateShape s, inBounds c s)
      ∧ enumerateShape s = (List.range (size s)).map (to_index s) :=
  ⟨length_enumerateShape s, nodup_enumerateShape s,
   fun _ hc => inBounds_of_mem_enumerateShape hc, enumerateShape_eq_map s⟩

theorem enumerateShape_spec_witness :
    [1, 2] ∈ enumerateShape [2, 3] ∧ inBounds [1, 2] [2, 3] :=
  ⟨by decide, (enumerateShape_spec [2, 3]).2.2.1 [1, 2] (by decide)⟩

/-- Claim C1: for every scalar function, output triple and input triple, the
map kernel writes, at the storage position of every output coordinate c, the
value fn applied to the input storage at the position of the broadcast input
coordinate, and writes nothing else (positions that belong to no output
coordinate are untouched).  Reading the per-coordinate write off the final
storage uses the well-formedness of the output triple: distinct output
coordinates occupy distinct storage cells and every cell lies inside the
output buffer. -/
theorem tensor_map_writes (fn : α → α) (d : α)
    (out : List α) (out_shape out_strides : List Nat)
    (in_storage : List α) (in_shape in_strides : List Nat)
    (hinj : ∀ c1 ∈ enumerateShape out_shape, ∀ c2 ∈ enumerateShape out_shape,
      index_to_position c1 out_strides = index_to_position c2 out_strides → c1 = c2)
    (hlen : ∀ c ∈ enumerateShape out_shape,
      index_to_position c out_strides < out.length) :
    (∀ c ∈ enumerateShape out_shape,
      (TensorOps.tensor_map fn d out out_shape out_strides
          in_storage in_shape in_strides).getD (index_to_position c out_strides) d
        = fn (in_storage.getD
            (index_to_position (broadcast_index c out_shape in_shape) in_strides) d))
    ∧ (∀ p, (∀ c ∈ enumerateShape out_shape, index_to_position c out_strides ≠ p) →
      (TensorOps.tensor_map fn d out out_shape out_strides
          in_storage in_shape in_strides)[p]? = out[p]?) := by
  rw [tensor_map_eq_writeList]
  constructor
  · intro c hc
    refine writeList_getD_of_mem ?_ ?_ (hlen c hc)
    · rw [mapWrites_keys]
      exact List.Nodup.map_on hinj (nodup_enumerateShape _)
    · exact List.mem_map.2 ⟨c, hc, rfl⟩
  · intro p hp
    refine writeList_getElem?_of_not_mem fun w hw => ?_
    obtain ⟨c, hc, rfl⟩ := List.mem_map.1 hw
    exact hp c hc

theorem tensor_map_writes_witness :
    (∀ c1 ∈ enumerateShape [2], ∀ c2 ∈ enumerateShape [2],
      index_to_position c1 [1] = index_to_position c2 [1] → c1 = c2)
    ∧ (TensorOps.tensor_map (fun x : Int => x + 1) 0 [0, 0] [2] [1]
        [10, 20] [2] [1]).getD (index_to_position [1] [1]) 0
      = (fun x : Int => x + 1)
          ([10, 20].getD (index_to_position (broadcast_index [1] [2] [2]) [1]) 0) :=
  ⟨by decide,
   (tensor_map_writes (fun x : Int => x + 1) 0 [0, 0] [2] [1] [10, 20] [2] [1]
     (by decide) (by decide)).1 [1] (by decide)⟩

/-- Claim C10: each kernel writes only output storage cells at positions
reachable from the output shape and strides; any other position of the output
buffer is untouched.  In this pure embedding the input storages and all shape
and stride sequences are immutable values the kernels cannot modify, so the
statement is the untouched-position guarantee for the three kernels. -/
theorem kernels_frame (fn1 : α → α) (fn2 : α → α → α) (d : α)
    (out : List α) (out_shape out_strides : List Nat)
    (a_storage : List α) (a_shape a_strides : List Nat)
    (b_storage : List α) (b_shape b_strides : List Nat)
    (reduce_dim : Nat) (p : Nat) :
    ((∀ c ∈ enumerateShape out_shape, index_to_position c out_strides ≠ p) →
      (TensorOps.tensor_map fn1 d out out_shape out_strides
        a_storage a_shape a_strides)[p]? = out[p]?)
    ∧ ((∀ c ∈ enumerateShape out_shape, index_to_position c out_strides ≠ p) →
      (TensorOps.tensor_zip fn2 d out out_shape out_strides
        a_storage a_shape a_strides b_storage b_shape b_strides)[p]? = out[p]?)
    ∧ (∀ st2, TensorOps.tensor_reduce fn2 d out out_shape out_strides
          a_storage a_shape a_strides reduce_dim = some st2 →
      (∀ idx ∈ enumerateShape (a_shape.eraseIdx reduce_dim),
        index_to_position (idx.insertIdx reduce_dim 0) out_strides ≠ p) →
      st2[p]? = out[p]?) := by
  refine ⟨?_, ?_, ?_⟩
  · intro hp
    rw [tensor_map_eq_writeList]
    refine writeList_getElem?_of_not_mem fun w hw => ?_
    obtain ⟨c, hc, rfl⟩ := List.mem_map.1 hw
    exact hp c hc
  · intro hp
    rw [tensor_zip_eq_writeList]
    refine writeList_getElem?_of_not_mem fun w hw => ?_
    obtain ⟨c, hc, rfl⟩ := List.mem_map.1 hw
    exact hp c hc
  · intro st2 hres hp
    exact foldlM_option_frame hres hp

theorem kernels_frame_witness :
    ((∀ c ∈ enumerateShape [2], index_to_position c [1] ≠ 7)
      ∧ (TensorOps.tensor_map (fun x : Int => x + 1) 0 [0, 0] [2] [1]
          [10, 20] [2] [1])[7]? = [(0 : Int), 0][7]?)
    ∧ ((TensorOps.tensor_zip (fun x y : Int => x + y) 0 [0, 0] [2] [1]
          [10, 20] [2] [1] [1, 2] [2] [1])[7]? = [(0 : Int), 0][7]?)
    ∧ (TensorOps.tensor_reduce (fun x y : Int => x + y) 0 [99] [1] [1]
          [3, 4] [2] [1] 0 = some [7]
      ∧ ([(7 : Int)])[1]? = [(99 : Int)][1]?) :=
  ⟨⟨by decide,
    (kernels_frame (fun x : Int => x + 1) (fun x y : Int => x + y) 0 [0, 0] [2] [1]
      [10, 20] [2] [1] [1, 2] [2] [1] 0 7).1 (by decide)⟩,
   (kernels_frame (fun x : Int => x + 1) (fun x y : Int => x + y) 0 [0, 0] [2] [1]
      [10, 20] [2] [1] [1, 2] [2] [1] 0 7).2.1 (by decide),
   ⟨by decide,
    (kernels_frame (fun x : Int => x + 1) (fun x y : Int => x + y) 0 [99] [1] [1]
      [3, 4] [2] [1] [1, 2] [2] [1] 0 1).2.2 [7] (by decide) (by decide)⟩⟩

/-- Claim C5: zip on two operands whose shapes are not mutually broadcast
compatible propagates the IndexingError raised by shape_broadcast and returns
no tensor: the output shape computation fails before any output buffer is
allocated or written. -/
theorem zip_incompatible_error (fn : α → α → α) (z : α) (a b : TensorData α)
    (e : IndexingError) (h : shape_broadcast a.shape b.shape = Except.error e) :
    TensorOps.zip fn z a b = Except.error e := by
  have hne : a.shape ≠ b.shape := by
    intro heq
    rw [heq, shape_broadcast_self] at h
    cases h
  unfold TensorOps.zip
  rw [if_pos hne, h]

theorem zip_incompatible_error_witness :
    shape_broadcast [2] [3] = Except.error ⟨"cannot broadcast"⟩
    ∧ TensorOps.zip Operators.add 0 ⟨[1, 2], [2], [1]⟩ ⟨[1, 2, 3], [3], [1]⟩
      = Except.error ⟨"cannot broadcast"⟩ :=
  ⟨rfl,
   zip_incompatible_error Operators.add 0 ⟨[1, 2], [2], [1]⟩ ⟨[1, 2, 3], [3], [1]⟩
     ⟨"cannot broadcast"⟩ rfl⟩

/-- Claim C6: on operands of equal shapes the shortcut taken by zip (using the
operands' shape directly as the output shape) produces a result identical, in
shape and in every stored value, to the general broadcast path that always
calls shape_broadcast: the two functions agree on the whole returned tensor. -/
theorem zip_shortcut_eq_general (fn : α → α → α) (z : α) (a b : TensorData α)
    (h : a.shape = b.shape) :
    TensorOps.zip fn z a b = TensorOps.zipGeneral fn z a b := by
  unfold TensorOps.zip TensorOps.zipGeneral
  rw [if_neg (not_not_intro h), ← h, shape_broadcast_self]

theorem zip_shortcut_eq_general_witness :
    TensorOps.zip Operators.add 0 ⟨[1, 2], [2], [1]⟩ ⟨[10, 20], [2], [1]⟩
      = TensorOps.zipGeneral Operators.add 0 ⟨[1, 2], [2], [1]⟩ ⟨[10, 20], [2], [1]⟩ :=
  zip_shortcut_eq_general Operators.add 0 ⟨[1, 2], [2], [1]⟩ ⟨[10, 20], [2], [1]⟩ rfl

theorem writeList_canon_getD {s : List Nat} (f : List Nat → α) (z d : α) {c : List Nat}
    (hc : c ∈ enumerateShape s) :
    (writeList ((enumerateShape s).map fun idx =>
        (index_to_position idx (canonStrides s), f idx))
      (List.replicate (size s) z)).getD (index_to_position c (canonStrides s)) d
      = f c := by
  refine writeList_getD_of_mem ?_ (List.mem_map.2 ⟨c, hc, rfl⟩) ?_
  · rw [List.map_map]
    exact nodup_canon_positions s
  · rw [List.length_replicate]
    exact index_to_position_lt (inBounds_of_mem_enumerateShape hc)

/-- Claim C7: mapping the identity function over any tensor with no output
buffer supplied returns a freshly allocated contiguous tensor of the input's
own shape whose value at every coordinate equals the input's value at that
same coordinate. -/
theorem map_id_preserves (z : α) (a : TensorData α) :
    (TensorOps.map Operators.id z a none).shape = a.shape
    ∧ (TensorOps.map Operators.id z a none).strides = canonStrides a.shape
    ∧ ∀ c ∈ enumerateShape a.shape,
      (TensorOps.map Operators.id z a none).storage.getD
          (index_to_position c (canonStrides a.shape)) z
        = a.storage.getD (index_to_position c a.strides) z := by
  refine ⟨rfl, rfl, fun c hc => ?_⟩
  show (TensorOps.tensor_map Operators.id z (List.replicate (size a.shape) z)
      a.shape (canonStrides a.shape) a.storage a.shape a.strides).getD
      (index_to_position c (canonStrides a.shape)) z = _
  rw [tensor_map_eq_writeList, mapWrites, writeList_canon_getD _ z z hc,
    broadcast_index_self (inBounds_of_mem_enumerateShape hc)]
  rfl

theorem map_id_preserves_witness :
    [0, 1] ∈ enumerateShape [1, 2]
    ∧ (TensorOps.map Operators.id 0 ⟨[5, 6], [1, 2], [2, 1]⟩ none).storage.getD
        (index_to_position [0, 1] (canonStrides [1, 2])) 0
      = ([(5 : Int), 6]).getD (index_to_position [0, 1] [2, 1]) 0 :=
  ⟨by decide,
   (map_id_preserves 0 ⟨[5, 6], [1, 2], [2, 1]⟩).2.2 [0, 1] (by decide)⟩

/-- Claim C2: zipping two tensors whose shapes broadcast to s yields a tensor
of shape s whose element at every coordinate c is fn applied to the two
operands read at the coordinates obtained by broadcasting c down to each
operand's own shape; when the operand shapes are equal this is the plain
elementwise combination fn(a at c, b at c). -/
theorem zip_elementwise (fn : α → α → α) (z : α) (a b : TensorData α)
    (s : List Nat) (hcs : shape_broadcast a.shape b.shape = Except.ok s) :
    ∃ t, TensorOps.zip fn z a b = Except.ok t
      ∧ t.shape = s ∧ t.strides = canonStrides s
      ∧ (∀ c ∈ enumerateShape s,
          t.storage.getD (index_to_position c (canonStrides s)) z
            = fn (a.storage.getD
                  (index_to_position (broadcast_index c s a.shape) a.strides) z)
                 (b.storage.getD
                  (index_to_position (broadcast_index c s b.shape) b.strides) z))
      ∧ (a.shape = b.shape → ∀ c ∈ enumerateShape s,
          t.storage.getD (index_to_position c (canonStrides s)) z
            = fn (a.storage.getD (index_to_position c a.strides) z)
                 (b.storage.getD (index_to_position c b.strides) z)) := by
  have hzip : TensorOps.zip fn z a b
      = Except.ok ⟨TensorOps.tensor_zip fn z (List.replicate (size s) z) s
          (canonStrides s) a.storage a.shape a.strides b.storage b.shape b.strides,
          s, canonStrides s⟩ := by
    rcases Decidable.em (a.shape = b.shape) with hab | hab
    · have hs : s = a.shape := by
        rw [← hab, shape_broadcast_self] at hcs
        exact (Except.ok.inj hcs).symm
      unfold TensorOps.zip
      rw [if_neg (not_not_intro hab), hs]
      rfl
    · unfold TensorOps.zip
      rw [if_pos hab, hcs]
      rfl
  have hval : ∀ c ∈ enumerateShape s,
      (TensorOps.tensor_zip fn z (List.replicate (size s) z) s (canonStrides s)
          a.storage a.shape a.strides b.storage b.shape b.strides).getD
        (index_to_position c (canonStrides s)) z
        = fn (a.storage.getD
              (index_to_position (broadcast_index c s a.shape) a.strides) z)
             (b.storage.getD
              (index_to_position (broadcast_index c s b.shape) b.strides) z) := by
    intro c hc
    rw [tensor_zip_eq_writeList, zipWrites, writeList_canon_getD _ z z hc]
  refine ⟨_, hzip, rfl, rfl, hval, fun hab c hc => ?_⟩
  have hs : s = a.shape := by
    rw [← hab, shape_broadcast_self] at hcs
    exact (Except.ok.inj hcs).symm
  have hbc : inBounds c s := inBounds_of_mem_enumerateShape hc
  have ha : broadcast_index c s a.shape = c := by
    rw [← hs]
    exact broadcast_index_self hbc
  have hb : broadcast_index c s b.shape = c := by
    rw [← hab, ← hs]
    exact broadcast_index_self hbc
  rw [hval c hc, ha, hb]

theorem zip_elementwise_witness :
    shape_broadcast [2, 1] [1, 3] = Except.ok [2, 3]
    ∧ ∃ t, TensorOps.zip Operators.add 0 ⟨[1, 2], [2, 1], [1, 1]⟩
        ⟨[10, 20, 30], [1, 3], [3, 1]⟩ = Except.ok t
      ∧ t.shape = [2, 3] ∧ t.strides = canonStrides [2, 3]
      ∧ (∀ c ∈ enumerateShape [2, 3],
          t.storage.getD (index_to_position c (canonStrides [2, 3])) 0
            = Operators.add
                (([(1 : Int), 2]).getD
                  (index_to_position (broadcast_index c [2, 3] [2, 1]) [1, 1]) 0)
                (([(10 : Int), 20, 30]).getD
                  (index_to_position (broadcast_index c [2, 3] [1, 3]) [3, 1]) 0))
      ∧ (([2, 1] : List Nat) = [1, 3] → ∀ c ∈ enumerateShape [2, 3],
          t.storage.getD (index_to_position c (canonStrides [2, 3])) 0
            = Operators.add (([(1 : Int), 2]).getD (index_to_position c [1, 1]) 0)
                (([(10 : Int), 20, 30]).getD (index_to_position c [3, 1]) 0)) :=
  ⟨rfl,
   zip_elementwise Operators.add 0 ⟨[1, 2], [2, 1], [1, 1]⟩
     ⟨[10, 20, 30], [1, 3], [3, 1]⟩ [2, 3] rfl⟩

/-- Claim C9: the callable returned by operators.reduce(fn, start) uses start
as a list index rather than as the seed of the fold: on the empty list it
returns 0 for every fn and start; with start = 0 on a non-empty list the
accumulator is initialized from the first element and fn is folded only over
the remaining elements, so fn is never applied to start itself; consequently
operators.sum and operators.prod both return 0 on the empty list. -/
theorem operators_reduce_start_semantics :
    (∀ (fn : Int → Int → Int) (start : Nat), Operators.reduce fn start [] = 0)
    ∧ (∀ (fn : Int → Int → Int) (x : Int) (xs : List Int),
        Operators.reduce fn 0 (x :: xs) = xs.foldl fn x)
    ∧ Operators.sum [] = 0 ∧ Operators.prod [] = 0 := by
  refine ⟨fun fn start => rfl, fun fn x xs => ?_, rfl, rfl⟩
  rw [Operators.reduce, if_neg (List.cons_ne_nil x xs)]
  rfl

theorem enumerateShape_set_one {s : List Nat} {dim : Nat} (h : dim < s.length) :
    enumerateShape (s.set dim 1)
      = (enumerateShape (s.eraseIdx dim)).map (List.insertIdx dim 0) := by
  induction s generalizing dim with
  | nil => simp at h
  | cons n ss ih =>
    cases dim with
    | zero =>
      rw [List.set_cons_zero, List.eraseIdx_cons_zero, enumerateShape_cons]
      rw [show List.range 1 = [0] from rfl, List.flatMap_cons, List.flatMap_nil,
        List.append_nil]
      exact List.map_congr_left fun c _ => (List.insertIdx_zero c 0).symm
    | succ d =>
      have hd : d < ss.length := by simpa using h
      rw [List.set_cons_succ, List.eraseIdx_cons_succ, enumerateShape_cons,
        enumerateShape_cons, ih hd, List.map_flatMap]
      refine congrArg (List.range n).flatMap ?_
      funext i
      rw [List.map_map, List.map_map]
      refine List.map_congr_left fun c _ => ?_
      show i :: List.insertIdx d 0 c = List.insertIdx (d + 1) 0 (i :: c)
      rw [List.insertIdx_succ_cons]

theorem inBounds_insertIdx_set {s idx : List Nat} {dim : Nat} (h : dim < s.length)
    (hidx : inBounds idx (s.eraseIdx dim)) :
    inBounds (idx.insertIdx dim 0) (s.set dim 1) := by
  induction s generalizing dim idx with
  | nil => simp at h
  | cons n ss ih =>
    cases dim with
    | zero =>
      rw [List.insertIdx_zero, List.set_cons_zero]
      rw [List.eraseIdx_cons_zero] at hidx
      exact ⟨Nat.zero_lt_one, hidx⟩
    | succ d =>
      have hd : d < ss.length := by simpa using h
      rw [List.eraseIdx_cons_succ] at hidx
      cases idx with
      | nil => exact absurd hidx (fun h => h)
      | cons i0 idx2 =>
        obtain ⟨h1, h2⟩ := hidx
        rw [List.insertIdx_succ_cons, List.set_cons_succ]
        exact ⟨h1, ih hd h2⟩

theorem canon_positions_cover {s : List Nat} {p : Nat} (hp : p < size s) :
    ∃ c ∈ enumerateShape s, index_to_position c (canonStrides s) = p :=
  ⟨to_index s p, mem_enumerateShape_of_inBounds (to_index_inBounds hp),
   index_to_position_to_index hp⟩

/-- The list of (position, value) writes performed by the reduce kernel on a
tensor with a nonempty reduced dimension: one write per coordinate of the
input shape with the reduced dimension deleted, at the position of that
coordinate with 0 re-inserted, holding the left fold of the values along the
reduced dimension seeded from the first of them. -/
def reduceWrites (fn : α → α → α) (z : α) (a : TensorData α) (dim : Nat) :
    List (Nat × α) :=
  (enumerateShape (a.shape.eraseIdx dim)).map fun idx =>
    (index_to_position (idx.insertIdx dim 0) (canonStrides (a.shape.set dim 1)),
     ((List.range (a.shape.getD dim 0 - 1)).map fun j =>
         a.storage.getD (index_to_position (idx.insertIdx dim (j + 1)) a.strides) z).foldl
       fn (a.storage.getD (index_to_position (idx.insertIdx dim 0) a.strides) z))

theorem reduceWrites_keys_nodup (fn : α → α → α) (z : α) (a : TensorData α)
    (dim : Nat) (hdim : dim < a.shape.length) :
    ((reduceWrites fn z a dim).map Prod.fst).Nodup := by
  rw [reduceWrites, List.map_map]
  refine List.Nodup.map_on ?_ (nodup_enumerateShape _)
  intro x1 h1 x2 h2 hp
  have hb1 := inBounds_insertIdx_set hdim (inBounds_of_mem_enumerateShape h1)
  have hb2 := inBounds_insertIdx_set hdim (inBounds_of_mem_enumerateShape h2)
  have heq := index_to_position_inj hb1 hb2 hp
  have h3 := congrArg (fun l => l.eraseIdx dim) heq
  simpa [List.eraseIdx_insertIdx] using h3

theorem tensor_reduce_eq_writeList (fn : α → α → α) (z : α) (a : TensorData α)
    (dim : Nat) (hk : 1 ≤ a.shape.getD dim 0) (st : List α) :
    TensorOps.tensor_reduce fn z st (a.shape.set dim 1)
        (canonStrides (a.shape.set dim 1)) a.storage a.shape a.strides dim
      = some (writeList (reduceWrites fn z a dim) st) := by
  obtain ⟨k2, hks⟩ : ∃ k2, a.shape.getD dim 0 = k2 + 1 :=
    ⟨a.shape.getD dim 0 - 1, by omega⟩
  have hv : ∀ idx : List Nat,
      firstFold fn ((List.range (a.shape.getD dim 0)).map fun j =>
          a.storage.getD (index_to_position (idx.insertIdx dim j) a.strides) z)
        = some (((List.range (a.shape.getD dim 0 - 1)).map fun j =>
              a.storage.getD
                (index_to_position (idx.insertIdx dim (j + 1)) a.strides) z).foldl
            fn (a.storage.getD (index_to_position (idx.insertIdx dim 0) a.strides) z)) := by
    intro idx
    have hk2 : a.shape.getD dim 0 - 1 = k2 := by omega
    rw [hk2, hks, List.range_succ_eq_map, List.map_cons, List.map_map]
    rfl
  rw [TensorOps.tensor_reduce, reduceWrites]
  exact foldlM_option_eq_writeList st fun idx _ => hv idx

theorem reduce_eq_writeList (fn : α → α → α) (start z : α) (a : TensorData α)
    (dim : Nat) (hk : 1 ≤ a.shape.getD dim 0) :
    TensorOps.reduce fn start z a dim
      = some ⟨writeList (reduceWrites fn z a dim)
            (List.replicate (size (a.shape.set dim 1)) start),
          a.shape.set dim 1, canonStrides (a.shape.set dim 1)⟩ := by
  show (match TensorOps.tensor_reduce fn z
      (List.replicate (List.replicate (size (a.shape.set dim 1)) z).length start)
      (a.shape.set dim 1) (canonStrides (a.shape.set dim 1))
      a.storage a.shape a.strides dim with
    | none => none
    | some st => some (TensorData.mk st (a.shape.set dim 1)
        (canonStrides (a.shape.set dim 1)))) = _
  rw [List.length_replicate, tensor_reduce_eq_writeList fn z a dim hk]

/-- Claim C3: with a nonempty reduced dimension, reduce(fn, start) succeeds
and returns a tensor whose shape equals the input shape with entry dim
replaced by 1 and all other entries unchanged; the value stored at every
output coordinate is the left fold, in increasing index order along dim, of
the input values along that dimension, with the accumulator initialized from
the first of those values and not from start; consequently the whole result
is independent of start. -/
theorem reduce_fold_spec (fn : α → α → α) (start z : α) (a : TensorData α)
    (dim : Nat) (hdim : dim < a.shape.length) (hk : 1 ≤ a.shape.getD dim 0) :
    ∃ t, TensorOps.reduce fn start z a dim = some t
      ∧ t.shape = a.shape.set dim 1
      ∧ (∀ idx ∈ enumerateShape (a.shape.eraseIdx dim),
          t.storage.getD
              (index_to_position (idx.insertIdx dim 0)
                (canonStrides (a.shape.set dim 1))) z
            = ((List.range (a.shape.getD dim 0 - 1)).map fun j =>
                  a.storage.getD
                    (index_to_position (idx.insertIdx dim (j + 1)) a.strides) z).foldl
                fn
                (a.storage.getD
                  (index_to_position (idx.insertIdx dim 0) a.strides) z))
      ∧ ∀ start2,
          TensorOps.reduce fn start2 z a dim = TensorOps.reduce fn start z a dim := by
  refine ⟨_, reduce_eq_writeList fn start z a dim hk, rfl, ?_, ?_⟩
  · intro idx hidx
    refine writeList_getD_of_mem (reduceWrites_keys_nodup fn z a dim hdim)
      (List.mem_map.2 ⟨idx, hidx, rfl⟩) ?_
    rw [List.length_replicate]
    exact index_to_position_lt
      (inBounds_insertIdx_set hdim (inBounds_of_mem_enumerateShape hidx))
  · intro start2
    rw [reduce_eq_writeList fn start z a dim hk,
      reduce_eq_writeList fn start2 z a dim hk]
    refine congrArg (fun st => some
      (⟨st, a.shape.set dim 1, canonStrides (a.shape.set dim 1)⟩ : TensorData α)) ?_
    refine writeList_ext (by rw [List.length_replicate, List.length_replicate]) ?_
    intro p hp
    have hplt : p < size (a.shape.set dim 1) := by
      by_contra hge
      rw [List.getElem?_replicate, List.getElem?_replicate,
        if_neg (by omega), if_neg (by omega)] at hp
      exact hp rfl
    obtain ⟨c, hcm, hcp⟩ := canon_positions_cover hplt
    rw [enumerateShape_set_one hdim] at hcm
    obtain ⟨idx, hidx, rfl⟩ := List.mem_map.1 hcm
    exact ⟨_, List.mem_map.2 ⟨idx, hidx, rfl⟩, hcp⟩

theorem reduce_fold_spec_witness :
    0 < ([2, 3] : List Nat).length ∧ 1 ≤ ([2, 3] : List Nat).getD 0 0
    ∧ ∃ t, TensorOps.reduce Operators.add 99 0 ⟨[1, 2, 3, 4, 5, 6], [2, 3], [3, 1]⟩ 0
        = some t
      ∧ t.shape = ([2, 3] : List Nat).set 0 1
      ∧ (∀ idx ∈ enumerateShape (([2, 3] : List Nat).eraseIdx 0),
          t.storage.getD
              (index_to_position (idx.insertIdx 0 0)
                (canonStrides (([2, 3] : List Nat).set 0 1))) 0
            = ((List.range (([2, 3] : List Nat).getD 0 0 - 1)).map fun j =>
                  ([(1 : Int), 2, 3, 4, 5, 6]).getD
                    (index_to_position (idx.insertIdx 0 (j + 1)) [3, 1]) 0).foldl
                Operators.add
                (([(1 : Int), 2, 3, 4, 5, 6]).getD
                  (index_to_position (idx.insertIdx 0 0) [3, 1]) 0))
      ∧ ∀ start2,
          TensorOps.reduce Operators.add start2 0
              ⟨[1, 2, 3, 4, 5, 6], [2, 3], [3, 1]⟩ 0
            = TensorOps.reduce Operators.add 99 0
                ⟨[1, 2, 3, 4, 5, 6], [2, 3], [3, 1]⟩ 0 :=
  ⟨by decide, by decide,
   reduce_fold_spec Operators.add 99 0 ⟨[1, 2, 3, 4, 5, 6], [2, 3], [3, 1]⟩ 0
     (by decide) (by decide)⟩

/-- Claim C4 fails on the code: reducing the shape (0,) tensor over dimension
0 does not return successfully with the pre-filled start value 5 at the
output position; the per-coordinate fold never initializes its accumulator
(the source's last is still None at the write), so the call fails, embedded
as the result none rather than some tensor. -/
theorem reduce_zero_dim_counterexample :
    TensorOps.reduce Operators.add 5 0 ⟨[], [0], [1]⟩ 0 = none := rfl

/-- Claim C4 amended: when the reduced dimension has size 0 and the remaining
dimensions enumerate at least one output coordinate, reduce(fn, start) does
not return an output holding the pre-filled start value - the write of the
never-initialized accumulator (None in the source) makes the call fail,
embedded as the result none. -/
theorem reduce_zero_dim_fails (fn : α → α → α) (start z : α) (a : TensorData α)
    (dim : Nat) (hk : a.shape.getD dim 0 = 0)
    (hpos : 0 < size (a.shape.eraseIdx dim)) :
    TensorOps.reduce fn start z a dim = none := by
  have h : ∀ (o : List α) (osh ost : List Nat),
      TensorOps.tensor_reduce fn z o osh ost a.storage a.shape a.strides dim
        = none := by
    intro o osh ost
    obtain ⟨idx, rest, heq⟩ :
        ∃ idx rest, enumerateShape (a.shape.eraseIdx dim) = idx :: rest := by
      cases henum : enumerateShape (a.shape.eraseIdx dim) with
      | nil =>
        have hlen := length_enumerateShape (a.shape.eraseIdx dim)
        rw [henum] at hlen
        rw [← hlen] at hpos
        exact absurd hpos (by simp)
      | cons x xs => exact ⟨x, xs, rfl⟩
    rw [TensorOps.tensor_reduce, heq, List.foldlM_cons, hk]
    rfl
  show (match TensorOps.tensor_reduce fn z
      (List.replicate (List.replicate (size (a.shape.set dim 1)) z).length start)
      (a.shape.set dim 1) (canonStrides (a.shape.set dim 1))
      a.storage a.shape a.strides dim with
    | none => (none : Option (TensorData α))
    | some st => some (TensorData.mk st (a.shape.set dim 1)
        (canonStrides (a.shape.set dim 1)))) = none
  rw [h]

theorem reduce_zero_dim_fails_witness :
    ([0] : List Nat).getD 0 0 = 0 ∧ 0 < size (([0] : List Nat).eraseIdx 0)
    ∧ TensorOps.reduce Operators.add 7 0 ⟨[], [0], [1]⟩ 0 = none :=
  ⟨by decide, by decide,
   reduce_zero_dim_fails Operators.add 7 0 ⟨[], [0], [1]⟩ 0 (by decide) (by decide)⟩

end Minitorch
